import Mathlib

/-!
Shallow embedding of `PyInstaller/utils/hooks/qt.py` (PyQt4/PyQt5/PySide/PySide2
hook utilities) and proofs about the properties claimed in the specification.

Strings are modelled as Lean `String`s; character-level computations follow
CPython's `posixpath`/`str` semantics on the character list (`String.data`).
External effects (filesystem probes, `eval_statement`/`exec_statement`
subprocesses, the environment, `bindepend.getImports`) are passed in as
explicit function parameters, so each operation of the source is a pure
function of its inputs and of the probe results.
-/

namespace PyiQt

/-! ### Character and path helpers (CPython semantics) -/

/-- `os.path.basename` for POSIX paths on a character list: everything after
the last `'/'`. -/
def basenameL (l : List Char) : List Char :=
  (l.reverse.takeWhile (fun c => c ≠ '/')).reverse

/-- `os.path.splitext` (CPython `posixpath`/`genericpath._splitext`) on a
basename: split at the last dot, provided some character strictly before that
dot is not itself a dot (so purely-leading dots never begin an extension). -/
def splitextL (l : List Char) : List Char × List Char :=
  let r := l.reverse
  let k := (r.takeWhile (fun c => c ≠ '.')).length
  if k = r.length then (l, [])
  else if (r.drop (k + 1)).all (fun c => c = '.') then (l, [])
  else ((r.drop (k + 1)).reverse, (r.take (k + 1)).reverse)

/-- Python `str.startswith` on character lists. -/
def startsWithL (p l : List Char) : Bool :=
  decide (l.take p.length = p)

/-- Python `str.endswith` on character lists. -/
def endsWithL (suf l : List Char) : Bool :=
  decide (l.reverse.take suf.length = suf.reverse)

/-- Python `str.lower` (ASCII fragment, as relevant to library names). -/
def lowerL (l : List Char) : List Char :=
  l.map Char.toLower

/-- Python `str.endswith` on `String`s. -/
def pyEndsWith (s suf : String) : Bool :=
  endsWithL suf.data s.data

/-- Python `str.startswith` on `String`s; also models
`versionstring.find(version) == 0`. -/
def pyStartsWith (s p : String) : Bool :=
  startsWithL p.data s.data

/-- `os.path.join` for two POSIX components (CPython `posixpath.join`). -/
def joinPath (a b : String) : String :=
  if pyStartsWith b "/" then b
  else if a = "" ∨ pyEndsWith a "/" then a ++ b
  else a ++ "/" ++ b

/-! ### Library-name normalization (`add_qt5_dependencies`, qt.py lines 397-406)

```
lib_name = os.path.splitext(os.path.basename(imp))[0].lower()
if is_linux and os.path.splitext(lib_name)[1] == '.so':
    lib_name = os.path.splitext(lib_name)[0]
if lib_name.startswith('lib'):
    lib_name = lib_name[3:]
if is_darwin and lib_name.startswith('Qt'):
    lib_name = 'Qt5' + lib_name[2:]
```
-/

/-- Line 398: `lib_name = os.path.splitext(os.path.basename(imp))[0].lower()`. -/
def libStep0 (imp : List Char) : List Char :=
  lowerL (splitextL (basenameL imp)).1

/-- Lines 400-401: strip a remaining `.so` once more on Linux (dotted
version suffixes such as `libfoo.so.3`). -/
def libStep1 (is_linux : Bool) (l0 : List Char) : List Char :=
  if is_linux && decide ((splitextL l0).2 = ['.', 's', 'o']) then (splitextL l0).1 else l0

/-- Lines 402-403: strip a leading `lib`. -/
def libStep2 (l1 : List Char) : List Char :=
  if startsWithL ['l', 'i', 'b'] l1 then l1.drop 3 else l1

/-- Lines 405-406: rename a leading `Qt` to `Qt5` on macOS. -/
def libStep3 (is_darwin : Bool) (l2 : List Char) : List Char :=
  if is_darwin && startsWithL ['Q', 't'] l2 then ['Q', 't', '5'] ++ l2.drop 2 else l2

def libNameOfL (is_linux is_darwin : Bool) (imp : List Char) : List Char :=
  libStep3 is_darwin (libStep2 (libStep1 is_linux (libStep0 imp)))

/-- Platform flags from `PyInstaller.compat` (`is_win`, `is_linux`,
`is_darwin`); exactly one is true on any real platform. -/
structure Platform where
  win : Bool
  linux : Bool
  darwin : Bool

def linuxPlatform : Platform := ⟨false, true, false⟩
def darwinPlatform : Platform := ⟨false, false, true⟩
def winPlatform : Platform := ⟨true, false, false⟩

/-- The normalized library name: key used against the static table. -/
def libNameOf (pf : Platform) (imp : String) : String :=
  ⟨libNameOfL pf.linux pf.darwin imp.data⟩

/-! ### The static dependency table (`_qt_dynamic_dependencies_dict`, lines 309-367)

Each value is `(hiddenimports, translations_base, zero or more plugins...)`. -/

structure QtEntry where
  hiddenimports : Option String
  translations : Option String
  plugins : List String
deriving DecidableEq

def qtDynamicDependencies : List (String × QtEntry) := [
  ("qt5bluetooth",          ⟨some "PyQt5.QtBluetooth", none, []⟩),
  ("qt5concurrent",         ⟨none, some "qtbase", []⟩),
  ("qt5core",               ⟨some "PyQt5.QtCore", some "qtbase", []⟩),
  ("qtdbus",                ⟨some "PyQt5.QtDBus", none, []⟩),
  ("qt5declarative",        ⟨none, some "qtquick1", ["qml1tooling"]⟩),
  ("qt5designer",           ⟨some "PyQt5.QtDesigner", none, []⟩),
  ("qt5designercomponents", ⟨none, none, []⟩),
  ("enginio",               ⟨none, none, []⟩),
  ("qt5gamepad",            ⟨none, none, ["gamepads"]⟩),
  ("qt5gui",                ⟨some "PyQt5.QtGui", some "qtbase",
    ["accessible", "iconengines", "imageformats", "platforms", "platforminputcontexts",
     "platformthemes"]⟩),
  ("qt5help",               ⟨some "PyQt5.QtHelp", some "qt_help", []⟩),
  ("qt5macextras",          ⟨some "PyQt5.QtMacExtras", none, []⟩),
  ("qt5multimedia",         ⟨some "PyQt5.QtMultimedia", some "qtmultimedia",
    ["audio", "mediaservice", "playlistformats"]⟩),
  ("qt5multimediawidgets",  ⟨some "PyQt5.QtMultimediaWidgets", some "qtmultimedia", []⟩),
  ("qt5multimediaquick_p",  ⟨none, some "qtmultimedia", []⟩),
  ("qt5network",            ⟨some "PyQt5.QtNetwork", some "qtbase", ["bearer"]⟩),
  ("qt5nfc",                ⟨some "PyQt5.QtNfc", none, []⟩),
  ("qt5opengl",             ⟨some "PyQt5.QtOpenGL", none,
    ["xcbglintegrations", "egldeviceintegrations"]⟩),
  ("qt5positioning",        ⟨some "PyQt5.QtPositioning", none, ["position"]⟩),
  ("qt5printsupport",       ⟨some "PyQt5.QtPrintSupport", none, ["printsupport"]⟩),
  ("qt5qml",                ⟨some "PyQt5.QtQml", some "qtdeclarative", []⟩),
  ("qmltooling",            ⟨none, none, ["qmltooling"]⟩),
  ("qt5quick",              ⟨some "PyQt5.QtQuick", some "qtdeclarative",
    ["scenegraph", "qmltooling"]⟩),
  ("qt5quickparticles",     ⟨none, none, []⟩),
  ("qt5quickwidgets",       ⟨some "PyQt5.QtQuickWidgets", none, []⟩),
  ("qt5script",             ⟨none, some "qtscript", []⟩),
  ("qt5scripttools",        ⟨none, some "qtscript", []⟩),
  ("qt5sensors",            ⟨some "PyQt5.QtSensors", none, ["sensors", "sensorgestures"]⟩),
  ("qt5serialport",         ⟨some "PyQt5.QtSerialPort", some "qtserialport", []⟩),
  ("qt5sql",                ⟨some "PyQt5.QtSql", some "qtbase", ["sqldrivers"]⟩),
  ("qt5svg",                ⟨some "PyQt5.QtSvg", none, []⟩),
  ("qt5test",               ⟨some "PyQt5.QtTest", some "qtbase", []⟩),
  ("qt5webkit",             ⟨none, none, []⟩),
  ("qt5webkitwidgets",      ⟨none, none, []⟩),
  ("qt5websockets",         ⟨some "PyQt5.QtWebSockets", none, []⟩),
  ("qt5widgets",            ⟨some "PyQt5.QtWidgets", some "qtbase", []⟩),
  ("qt5winextras",          ⟨some "PyQt5.QtWinExtras", none, []⟩),
  ("qt5xml",                ⟨some "PyQt5.QtXml", some "qtbase", []⟩),
  ("qt5xmlpatterns",        ⟨some "PyQt5.QXmlPatterns", some "qtxmlpatterns", []⟩),
  ("qt5webenginecore",      ⟨some "PyQt5.QtWebEngineCore", none,
    ["qtwebengine", "xcbglintegrations", "egldeviceintegrations"]⟩),
  ("qt5webengine",          ⟨some "PyQt5.QtWebEngine", some "qtwebengine", ["qtwebengine"]⟩),
  ("qt5webenginewidgets",   ⟨some "PyQt5.QtWebEngineWidgets", none, ["qtwebengine"]⟩),
  ("qt53dcore",             ⟨none, none, []⟩),
  ("qt53drender",           ⟨none, none, ["sceneparsers", "renderplugins", "geometryloaders"]⟩),
  ("qt53dquick",            ⟨none, none, []⟩),
  ("qt53dquickRender",      ⟨none, none, []⟩),
  ("qt53dinput",            ⟨none, none, []⟩),
  ("qt5location",           ⟨some "PyQt5.QtLocation", none, ["geoservices"]⟩),
  ("qt5webchannel",         ⟨some "PyQt5.QtWebChannel", none, []⟩),
  ("qt5texttospeech",       ⟨none, none, ["texttospeech"]⟩),
  ("qt5serialbus",          ⟨none, none, ["canbus"]⟩)]

/-- `lib_name in _qt_dynamic_dependencies_dict` / `_qt_dynamic_dependencies_dict[lib_name]`. -/
def qtTableLookup (k : String) : Option QtEntry :=
  qtDynamicDependencies.lookup k

/-! ### The transitive walk of `add_qt5_dependencies` (lines 389-421)

```
imports = set(getImports(module))
while imports:
    imp = imports.pop()
    if is_win: imp = getfullnameof(imp)
    lib_name = <normalization of imp>
    if lib_name in _qt_dynamic_dependencies_dict:
        imports.update(getImports(imp))
        lib_name_hiddenimports, lib_name_translations_base, *lib_name_plugins = ...
        if lib_name_hiddenimports: hiddenimports.update([lib_name_hiddenimports])
        plugins.update(lib_name_plugins)
        if lib_name_translations_base: translations_base.update([...])
```

`set.pop()` removes an *arbitrary* element, so one iteration is modelled as a
nondeterministic step relation; the external `getImports` (the native-library
dependency graph) and `getfullnameof` are parameters. -/

structure WalkCfg where
  pf : Platform
  getImports : String → List String
  fullnameOf : String → String
  table : String → Option QtEntry

structure WalkState where
  imports : Finset String
  hiddenimports : Finset String
  translations : Finset String
  plugins : Finset String
deriving DecidableEq

/-- One iteration of the `while imports:` loop, popping `imp`. -/
def expandStep (cfg : WalkCfg) (imp : String) (s : WalkState) : WalkState :=
  let rest := s.imports.erase imp
  let imp2 := if cfg.pf.win then cfg.fullnameOf imp else imp
  let lib_name := libNameOf cfg.pf imp2
  match cfg.table lib_name with
  | none => { s with imports := rest }
  | some e =>
    { imports := rest ∪ (cfg.getImports imp2).toFinset,
      hiddenimports := s.hiddenimports ∪ (match e.hiddenimports with
        | some h => {h} | none => ∅),
      translations := s.translations ∪ (match e.translations with
        | some t => {t} | none => ∅),
      plugins := s.plugins ∪ e.plugins.toFinset }

/-- The loop's small-step relation: any member of the work-set may be popped. -/
inductive Step (cfg : WalkCfg) : WalkState → WalkState → Prop where
  | pop (s : WalkState) (imp : String) (h : imp ∈ s.imports) :
      Step cfg s (expandStep cfg imp s)

def Reaches (cfg : WalkCfg) : WalkState → WalkState → Prop :=
  Relation.ReflTransGen (Step cfg)

/-- The walk terminates from `s0`: there is no infinite run of loop iterations. -/
def Terminating (cfg : WalkCfg) (s0 : WalkState) : Prop :=
  ¬ ∃ f : ℕ → WalkState, f 0 = s0 ∧ ∀ n, Step cfg (f n) (f (n + 1))

/-- Bounded exhaustive check: within `fuel` iterations, every pop order drains
the work-set and ends with exactly the expected three result sets. -/
def okRun (cfg : WalkCfg) (eh et ep : Finset String) : ℕ → WalkState → Bool
  | 0, s =>
    decide (s.imports = ∅) &&
    decide (s.hiddenimports = eh ∧ s.translations = et ∧ s.plugins = ep)
  | n + 1, s =>
    if s.imports = ∅ then
      decide (s.hiddenimports = eh ∧ s.translations = et ∧ s.plugins = ep)
    else
      decide (∀ imp ∈ s.imports, okRun cfg eh et ep n (expandStep cfg imp s) = true)

/-! ### The walk's dependency graph, weight measure and invariant

`walkEntry cfg imp` is the table entry the loop body looks up for a popped
work-set element (after a Windows `getfullnameof` and the name normalization);
`walkSuccs cfg imp` is the list of elements the loop body adds back to the
work-set for it (`getImports(imp)` on a table hit, nothing otherwise). An
acyclic graph is one along whose edges some height function `h` strictly
decreases; from that a per-import weight and a state measure
are built that strictly decrease at every loop iteration. -/

def walkEntry (cfg : WalkCfg) (imp : String) : Option QtEntry :=
  cfg.table (libNameOf cfg.pf (if cfg.pf.win then cfg.fullnameOf imp else imp))

def walkSuccs (cfg : WalkCfg) (imp : String) : List String :=
  match walkEntry cfg imp with
  | some _ => cfg.getImports (if cfg.pf.win then cfg.fullnameOf imp else imp)
  | none => []

/-- The truthiness-guarded singleton used by the loop body for the optional
hidden-import and translation-base entries. -/
def optFinset (o : Option String) : Finset String :=
  match o with
  | some x => {x}
  | none => ∅

/-- One edge of the dependency graph the walk explores. -/
def GEdge (cfg : WalkCfg) (a b : String) : Prop :=
  b ∈ walkSuccs cfg a

/-- Graph-reachability from the starting work-set. -/
def ReachableFrom (cfg : WalkCfg) (S : Finset String) (n : String) : Prop :=
  ∃ s0 ∈ S, Relation.ReflTransGen (GEdge cfg) s0 n

/-- Fuel-indexed weight: `1` plus the weights of the successors, to `n`
levels. -/
def walkHeightW (cfg : WalkCfg) (h : String → ℕ) : ℕ → String → ℕ
  | 0, _ => 1
  | n + 1, imp => 1 + ((walkSuccs cfg imp).map (fun c => walkHeightW cfg h n c)).sum

/-- The weight of an import: its fuel-indexed weight at its own height. -/
def walkWeight (cfg : WalkCfg) (h : String → ℕ) (imp : String) : ℕ :=
  walkHeightW cfg h (h imp) imp

/-- The termination measure of a walk state: total weight of the work-set. -/
def stateMeasure (cfg : WalkCfg) (h : String → ℕ) (s : WalkState) : ℕ :=
  s.imports.sum (walkWeight cfg h)

/-- The declared entries of import `n` are already in the result sets. -/
def EntriesIn (cfg : WalkCfg) (n : String) (s : WalkState) : Prop :=
  ∀ e, walkEntry cfg n = some e →
    (∀ x, e.hiddenimports = some x → x ∈ s.hiddenimports) ∧
    (∀ x, e.translations = some x → x ∈ s.translations) ∧
    (∀ x ∈ e.plugins, x ∈ s.plugins)

/-- The loop invariant: results are sound (each element is a declared entry of
some reachable import), the work-set holds only reachable imports, and every
reachable import either has its entries collected already or is still covered
by a pending work-set element. -/
structure WalkInv (cfg : WalkCfg) (S : Finset String) (s : WalkState) : Prop where
  hiSound : ∀ x ∈ s.hiddenimports, ∃ n, ReachableFrom cfg S n ∧
    ∃ e, walkEntry cfg n = some e ∧ e.hiddenimports = some x
  trSound : ∀ x ∈ s.translations, ∃ n, ReachableFrom cfg S n ∧
    ∃ e, walkEntry cfg n = some e ∧ e.translations = some x
  plSound : ∀ x ∈ s.plugins, ∃ n, ReachableFrom cfg S n ∧
    ∃ e, walkEntry cfg n = some e ∧ x ∈ e.plugins
  wsReach : ∀ w ∈ s.imports, ReachableFrom cfg S w
  complete : ∀ n, ReachableFrom cfg S n →
    EntriesIn cfg n s ∨ ∃ w ∈ s.imports, Relation.ReflTransGen (GEdge cfg) w n

/-! Concrete walk configurations used by the claims. -/

/-- A two-cycle of table libraries: `libA.so` and `libB.so` each import the
other, and both normalize to table keys. -/
def cycleCfg : WalkCfg where
  pf := linuxPlatform
  getImports s := if s = "libA.so" then ["libB.so"]
    else if s = "libB.so" then ["libA.so"] else []
  fullnameOf := id
  table k := if k = "a" ∨ k = "b" then some ⟨none, none, []⟩ else none

def cycleInit : WalkState := ⟨{"libA.so"}, ∅, ∅, ∅⟩

def cycleOther : WalkState := ⟨{"libB.so"}, ∅, ∅, ∅⟩

/-- The infinite run witnessing non-termination on the cycle. -/
def cycleTrace (n : ℕ) : WalkState :=
  if n % 2 = 0 then cycleInit else cycleOther

/-- The diamond: `libA.so` imports `libB.so` and `libC.so`, both of
which import `libD.so`; all four are table libraries with distinct declared
entries. -/
def diamondCfg : WalkCfg where
  pf := linuxPlatform
  getImports s := if s = "libA.so" then ["libB.so", "libC.so"]
    else if s = "libB.so" then ["libD.so"]
    else if s = "libC.so" then ["libD.so"] else []
  fullnameOf := id
  table k := if k = "a" then some ⟨some "pkg.A", some "tb.a", ["pl.a"]⟩
    else if k = "b" then some ⟨some "pkg.B", some "tb.b", ["pl.b"]⟩
    else if k = "c" then some ⟨some "pkg.C", some "tb.c", ["pl.c"]⟩
    else if k = "d" then some ⟨some "pkg.D", some "tb.d", ["pl.d"]⟩
    else none

def diamondInit : WalkState := ⟨{"libA.so"}, ∅, ∅, ∅⟩

def diamondHidden : Finset String := {"pkg.A", "pkg.B", "pkg.C", "pkg.D"}
def diamondTrans : Finset String := {"tb.a", "tb.b", "tb.c", "tb.d"}
def diamondPlugins : Finset String := {"pl.a", "pl.b", "pl.c", "pl.d"}

/-- The drained terminal state of the diamond walk. -/
def diamondFinal : WalkState := ⟨∅, diamondHidden, diamondTrans, diamondPlugins⟩

/-- A height function witnessing that the diamond graph is acyclic. -/
def diamondHeight (imp : String) : ℕ :=
  if imp = "libA.so" then 2
  else if imp = "libB.so" then 1
  else if imp = "libC.so" then 1
  else 0

/-- The configuration of claim C4: table exactly `x -> (pkg.X, base_x, [plugA])`,
start work-set `{libx.so.1}`, and the library itself has no further imports. -/
def c4Cfg : WalkCfg where
  pf := linuxPlatform
  getImports _ := []
  fullnameOf := id
  table k := if k = "x" then some ⟨some "pkg.X", some "base_x", ["plugA"]⟩ else none

def c4Init : WalkState := ⟨{"libx.so.1"}, ∅, ∅, ∅⟩

/-- The drained terminal state of the C4 walk. -/
def c4Final : WalkState := ⟨∅, {"pkg.X"}, {"base_x"}, {"plugA"}⟩

/-! ### Python-style errors and the probe operations -/

inductive PyErr where
  | exc (msg : String)
  | indexError
deriving DecidableEq

def validNamespaces : List String := ["PyQt4", "PyQt5", "PySide", "PySide2"]

/-- `qt_plugins_dir` (lines 21-52). `evalPaths` is the list produced by the
`eval_statement` subprocess (`app.libraryPaths()`); `isdir` is
`os.path.isdir`. -/
def qt_plugins_dir (ns : String) (evalPaths : List String) (isdir : String → Bool) :
    Except PyErr (List String) :=
  if ns ∉ validNamespaces then .error (.exc ("Invalid namespace: " ++ ns))
  else if evalPaths = [] then
    .error (.exc ("Cannot find " ++ ns ++ " plugin directories"))
  else
    let valid_paths := evalPaths.filter (fun p => isdir p)
    if valid_paths = [] then
      .error (.exc ("Cannot find existing " ++ ns ++ " plugin directories. Paths checked: "
        ++ String.intercalate ", " evalPaths))
    else .ok valid_paths

/-- Modelled from the spec: `PyInstaller.utils.misc.dlls_in_dir` is not among
the sources under verification (it lives in `PyInstaller/utils/misc.py`).
Per the spec, manifest assembly converts a plugin category to files "by
scanning that category's subdirectory", and a glob scan of a directory that
does not exist yields no files. `dirExists` says which directories exist and
`contents` gives the dynamic libraries of an existing directory. -/
def dlls_in_dir (dirExists : String → Bool) (contents : String → List String)
    (d : String) : List String :=
  if dirExists d then contents d else []

/-- `qt_plugins_binaries` (lines 55-97). `dllsInDir` is `misc.dlls_in_dir`. -/
def qt_plugins_binaries (plugin_type ns : String) (evalPaths : List String)
    (isdir : String → Bool) (dllsInDir : String → List String) (is_win : Bool) :
    Except PyErr (List (String × String)) :=
  if ns ∉ validNamespaces then .error (.exc ("Invalid namespace: " ++ ns))
  else match qt_plugins_dir ns evalPaths isdir with
  | .error e => .error e
  | .ok pdir =>
    let files0 := pdir.flatMap (fun path => dllsInDir (joinPath path plugin_type))
    let files :=
      if is_win && decide (ns ∈ ["PyQt4", "PySide"]) then
        files0.filter (fun f => !(pyEndsWith f "d4.dll"))
      else if is_win && decide (ns ∈ ["PyQt5", "PySide2"]) then
        files0.filter (fun f => !(pyEndsWith f "d.dll"))
      else files0
    let plugin_dir :=
      if ns ∈ ["PyQt4", "PySide"] then "qt4_plugins"
      else if ns = "PyQt5" then joinPath (joinPath "PyQt5" "Qt") "plugins"
      else "qt5_plugins"
    let dest_dir := joinPath plugin_dir plugin_type
    .ok (files.map (fun f => (f, dest_dir)))

/-- `qt_menu_nib_dir` (lines 100-133). `execLibPath` is the path printed by the
`exec_statement` subprocess (`QLibraryInfo.LibrariesPath`), `execPrefix` is
`sys.exec_prefix`, `pexists` is `os.path.exists`. -/
def qt_menu_nib_dir (ns : String) (execLibPath execPrefix : String)
    (pexists : String → Bool) : Except PyErr String :=
  if ns ∉ validNamespaces then .error (.exc ("Invalid namespace: " ++ ns))
  else
    let anaconda := joinPath (joinPath (joinPath execPrefix "python.app") "Contents")
      "Resources"
    let paths := [joinPath execLibPath "Resources",
      joinPath (joinPath execLibPath "QtGui.framework") "Resources", anaconda]
    match paths.find? (fun loc => pexists (joinPath loc "qt_menu.nib")) with
    | some loc => .ok (joinPath loc "qt_menu.nib")
    | none => .error (.exc ("Cannot find qt_menu.nib for " ++ ns ++ ". Path checked: "
        ++ String.intercalate ", " paths))

/-- The `for directory in dirs:` loop of `get_qmake_path` (lines 161-174):
try `directory/bin/qmake`, skipping candidates whose invocation fails
(`run _ = none`, i.e. OSError / CalledProcessError) or whose reported version
does not start with the requested one (`versionstring.find(version) == 0`). -/
def qmakeSearch (version : String) (run : String → Option String) :
    List String → Option String
  | [] => none
  | d :: rest =>
    let qmake := joinPath (joinPath d "bin") "qmake"
    match run qmake with
    | none => qmakeSearch version run rest
    | some versionstring =>
      if pyStartsWith versionstring version then some qmake
      else qmakeSearch version run rest

/-- Lines 152-159: the default `$PATH` entry `''` followed by any truthy
homebrew prefixes for the formulas `qt` and `qt5`. -/
def qmakeDirs (homebrew : String → Option String) : List String :=
  "" :: (["qt", "qt5"].filterMap homebrew).filter (fun p => p ≠ "")

/-- Lines 148-176 of `get_qmake_path`: the `QT4DIR` branch, then the search. -/
def qmakeFromQt4Dir (version : String) (env homebrew : String → Option String)
    (run : String → Option String) : Except PyErr (Option String) :=
  match env "QT4DIR" with
  | none => .ok (qmakeSearch version run (qmakeDirs homebrew))
  | some d =>
    match version.data with
    | [] => .error .indexError
    | c :: _ =>
      if c = '4' then .ok (some (joinPath (joinPath d "bin") "qmake"))
      else .ok (qmakeSearch version run (qmakeDirs homebrew))

/-- `get_qmake_path` (lines 136-176). `env` is `os.environ`, `homebrew` is
`get_homebrew_path`, `run` is `subprocess.check_output([qmake, '-query',
'QT_VERSION'])` (already stripped and decoded), returning `none` on OSError or
CalledProcessError. Python's `and` evaluates `'QT5DIR' in os.environ` before
`version[0]`, so the subscript (and its possible IndexError) is only reached
with the variable set. -/
def get_qmake_path (version : String) (env homebrew : String → Option String)
    (run : String → Option String) : Except PyErr (Option String) :=
  match env "QT5DIR" with
  | none => qmakeFromQt4Dir version env homebrew run
  | some d =>
    match version.data with
    | [] => .error .indexError
    | c :: _ =>
      if c = '5' then .ok (some (joinPath (joinPath d "bin") "qmake"))
      else qmakeFromQt4Dir version env homebrew run

/-! ## Theorems -/

/-! ### Character-level facts about ASCII lowercasing -/

theorem char_toNat_ofNat_lt {n : ℕ} (h : n < 55296) : (Char.ofNat n).toNat = n := by
  unfold Char.ofNat
  rw [dif_pos (Or.inl h)]
  rfl

theorem char_toLower_toNat (c : Char) :
    (Char.toLower c).toNat =
      if 65 ≤ c.toNat ∧ c.toNat ≤ 90 then c.toNat + 32 else c.toNat := by
  unfold Char.toLower
  by_cases h : 65 ≤ c.toNat ∧ c.toNat ≤ 90
  · rw [if_pos h, if_pos h, char_toNat_ofNat_lt (by omega)]
  · rw [if_neg h, if_neg h]

theorem char_toNat_inj {a b : Char} (h : a.toNat = b.toNat) : a = b := by
  have h2 := congrArg Char.ofNat h
  rwa [Char.ofNat_toNat, Char.ofNat_toNat] at h2

theorem char_toLower_idem (c : Char) : (Char.toLower c).toLower = Char.toLower c := by
  apply char_toNat_inj
  rw [char_toLower_toNat, char_toLower_toNat]
  split_ifs <;> omega

theorem char_toLower_eq_slash {c : Char} (h : Char.toLower c = '/') : c = '/' := by
  apply char_toNat_inj
  have h2 := congrArg Char.toNat h
  rw [char_toLower_toNat] at h2
  have hs : ('/' : Char).toNat = 47 := by decide
  rw [hs] at h2
  rw [hs]
  split at h2 <;> omega

theorem char_toLower_ne_Q (c : Char) : Char.toLower c ≠ 'Q' := by
  intro h
  have h2 := congrArg Char.toNat h
  rw [char_toLower_toNat] at h2
  have hq : ('Q' : Char).toNat = 81 := by decide
  rw [hq] at h2
  split at h2 <;> omega

/-! ### Structural facts about the normalization pipeline -/

theorem basenameL_no_slash {l : List Char} : '/' ∉ basenameL l := by
  intro h
  rw [basenameL, List.mem_reverse] at h
  have := List.mem_takeWhile_imp h
  simp at this

theorem basenameL_of_no_slash {l : List Char} (h : '/' ∉ l) : basenameL l = l := by
  have h' : l.reverse.takeWhile (fun c => c ≠ '/') = l.reverse := by
    rw [List.takeWhile_eq_self_iff]
    intro x hx
    simp only [ne_eq, decide_not, Bool.not_eq_true', decide_eq_false_iff_not]
    intro heq
    exact h (heq ▸ List.mem_reverse.mp hx)
  rw [basenameL, h', List.reverse_reverse]

theorem splitextL_of_no_dot {l : List Char} (h : '.' ∉ l) : splitextL l = (l, []) := by
  have h' : l.reverse.takeWhile (fun c => c ≠ '.') = l.reverse := by
    rw [List.takeWhile_eq_self_iff]
    intro x hx
    simp only [ne_eq, decide_not, Bool.not_eq_true', decide_eq_false_iff_not]
    intro heq
    exact h (heq ▸ List.mem_reverse.mp hx)
  simp only [splitextL, h']
  simp

theorem mem_splitextL_fst {l : List Char} {c : Char} (h : c ∈ (splitextL l).1) : c ∈ l := by
  simp only [splitextL] at h
  split at h
  · exact h
  · split at h
    · exact h
    · simp only at h
      exact List.mem_reverse.mp (List.mem_of_mem_drop (List.mem_reverse.mp h))

theorem lowerL_fix_of {l : List Char} (h : ∀ c ∈ l, Char.toLower c = c) :
    lowerL l = l := by
  rw [lowerL, List.map_congr_left h]
  simp

theorem libStep0_lowered {imp : List Char} : ∀ c ∈ libStep0 imp, Char.toLower c = c := by
  intro c hc
  rw [libStep0, lowerL] at hc
  obtain ⟨c', _, rfl⟩ := List.mem_map.mp hc
  exact char_toLower_idem c'

theorem libStep1_sub {lin : Bool} {l : List Char} : ∀ c ∈ libStep1 lin l, c ∈ l := by
  intro c hc
  rw [libStep1] at hc
  split at hc
  · exact mem_splitextL_fst hc
  · exact hc

theorem libStep2_sub {l : List Char} : ∀ c ∈ libStep2 l, c ∈ l := by
  intro c hc
  rw [libStep2] at hc
  split at hc
  · exact List.mem_of_mem_drop hc
  · exact hc

theorem lib2_lowered (lin : Bool) (imp : List Char) :
    ∀ c ∈ libStep2 (libStep1 lin (libStep0 imp)), Char.toLower c = c :=
  fun c hc => libStep0_lowered c (libStep1_sub c (libStep2_sub c hc))

theorem libStep3_lowered_eq {dar : Bool} {l : List Char}
    (h : ∀ c ∈ l, Char.toLower c = c) : libStep3 dar l = l := by
  rw [libStep3]
  have hfalse : (dar && startsWithL ['Q', 't'] l) = false := by
    cases hq : startsWithL ['Q', 't'] l
    · simp
    · exfalso
      rw [startsWithL] at hq
      have h2 : l.take 2 = ['Q', 't'] := of_decide_eq_true hq
      have hQ : 'Q' ∈ l := List.mem_of_mem_take (l := l) (n := 2)
        (h2 ▸ List.mem_cons_self 'Q' ['t'])
      have hfix : Char.toLower 'Q' = 'Q' := h 'Q' hQ
      exact absurd hfix (by decide)
  simp [hfalse]

theorem libNameOfL_lowered (lin dar : Bool) (imp : List Char) :
    ∀ c ∈ libNameOfL lin dar imp, Char.toLower c = c := by
  intro c hc
  rw [libNameOfL, libStep3_lowered_eq (lib2_lowered lin imp)] at hc
  exact lib2_lowered lin imp c hc

theorem libNameOfL_no_slash (lin dar : Bool) (imp : List Char) :
    '/' ∉ libNameOfL lin dar imp := by
  intro hc
  rw [libNameOfL, libStep3_lowered_eq (lib2_lowered lin imp)] at hc
  have h0 : '/' ∈ libStep0 imp := libStep1_sub '/' (libStep2_sub '/' hc)
  rw [libStep0, lowerL] at h0
  obtain ⟨c', hc', heq⟩ := List.mem_map.mp h0
  have hc'' : c' = '/' := char_toLower_eq_slash heq
  exact basenameL_no_slash (hc'' ▸ mem_splitextL_fst hc')

theorem libNameOfL_fix (lin dar : Bool) {n : List Char}
    (hlow : ∀ c ∈ n, Char.toLower c = c) (hslash : '/' ∉ n) (hdot : '.' ∉ n)
    (hlib : startsWithL ['l', 'i', 'b'] n = false) :
    libNameOfL lin dar n = n := by
  have h0 : libStep0 n = n := by
    rw [libStep0, basenameL_of_no_slash hslash, splitextL_of_no_dot hdot]
    exact lowerL_fix_of hlow
  have h1 : libStep1 lin (libStep0 n) = n := by
    rw [h0, libStep1, splitextL_of_no_dot hdot]
    simp
  have h2 : libStep2 n = n := by
    rw [libStep2, hlib]
    simp
  rw [libNameOfL, h1, h2, libStep3_lowered_eq hlow]

/-! ### Soundness of the bounded run checker for the transitive walk -/

theorem step_inv {cfg : WalkCfg} {s s' : WalkState} (h : Step cfg s s') :
    ∃ imp ∈ s.imports, s' = expandStep cfg imp s := by
  cases h with
  | pop imp hm => exact ⟨imp, hm, rfl⟩

theorem okRun_zero {cfg : WalkCfg} {eh et ep : Finset String} {s : WalkState}
    (h : okRun cfg eh et ep 0 s = true) :
    s.imports = ∅ ∧ s.hiddenimports = eh ∧ s.translations = et ∧ s.plugins = ep := by
  simp only [okRun, Bool.and_eq_true, decide_eq_true_eq] at h
  exact ⟨h.1, h.2⟩

theorem okRun_empty {cfg : WalkCfg} {eh et ep : Finset String} {n : ℕ} {s : WalkState}
    (h : okRun cfg eh et ep n s = true) (he : s.imports = ∅) :
    s.hiddenimports = eh ∧ s.translations = et ∧ s.plugins = ep := by
  cases n with
  | zero => exact (okRun_zero h).2
  | succ n =>
    simp only [okRun, he, if_true, decide_eq_true_eq] at h
    exact h

theorem okRun_step {cfg : WalkCfg} {eh et ep : Finset String} {n : ℕ} {s : WalkState}
    {imp : String} (h : okRun cfg eh et ep (n + 1) s = true) (himp : imp ∈ s.imports) :
    okRun cfg eh et ep n (expandStep cfg imp s) = true := by
  have hne : ¬s.imports = ∅ := fun he => by
    rw [he] at himp
    exact absurd himp (Finset.not_mem_empty _)
  simp only [okRun, hne, if_false, decide_eq_true_eq] at h
  exact h imp himp

theorem okRun_no_infinite {cfg : WalkCfg} {eh et ep : Finset String} :
    ∀ {n : ℕ} {s : WalkState}, okRun cfg eh et ep n s = true →
      ∀ f : ℕ → WalkState, f 0 = s → (∀ k, Step cfg (f k) (f (k + 1))) → False := by
  intro n
  induction n with
  | zero =>
    intro s h f h0 hstep
    have he := (okRun_zero h).1
    obtain ⟨imp, hmem, -⟩ := step_inv (h0 ▸ hstep 0)
    rw [he] at hmem
    exact absurd hmem (Finset.not_mem_empty _)
  | succ n ih =>
    intro s h f h0 hstep
    by_cases he : s.imports = ∅
    · obtain ⟨imp, hmem, -⟩ := step_inv (h0 ▸ hstep 0)
      rw [he] at hmem
      exact absurd hmem (Finset.not_mem_empty _)
    · obtain ⟨imp, hmem, heq⟩ := step_inv (h0 ▸ hstep 0)
      exact ih (okRun_step h hmem) (fun k => f (k + 1)) heq (fun k => hstep (k + 1))

theorem okRun_terminating {cfg : WalkCfg} {eh et ep : Finset String} {n : ℕ}
    {s : WalkState} (h : okRun cfg eh et ep n s = true) : Terminating cfg s := by
  rintro ⟨f, h0, hstep⟩
  exact okRun_no_infinite h f h0 hstep

theorem okRun_reaches {cfg : WalkCfg} {eh et ep : Finset String} {s s' : WalkState}
    (hr : Reaches cfg s s') :
    ∀ {n : ℕ}, okRun cfg eh et ep n s = true → ∃ m, okRun cfg eh et ep m s' = true := by
  induction hr with
  | refl => exact fun h => ⟨_, h⟩
  | tail hab hbc ih =>
    intro n h
    obtain ⟨m, hm⟩ := ih h
    obtain ⟨imp, hmem, heq⟩ := step_inv hbc
    cases m with
    | zero =>
      rw [(okRun_zero hm).1] at hmem
      exact absurd hmem (Finset.not_mem_empty _)
    | succ m => exact ⟨m, heq ▸ okRun_step hm hmem⟩

theorem okRun_terminal_results {cfg : WalkCfg} {eh et ep : Finset String} {n : ℕ}
    {s s' : WalkState} (h : okRun cfg eh et ep n s = true) (hr : Reaches cfg s s')
    (he : s'.imports = ∅) :
    s'.hiddenimports = eh ∧ s'.translations = et ∧ s'.plugins = ep := by
  obtain ⟨m, hm⟩ := okRun_reaches hr h
  exact okRun_empty hm he

theorem okRun_exists_terminal {cfg : WalkCfg} {eh et ep : Finset String} :
    ∀ {n : ℕ} {s : WalkState}, okRun cfg eh et ep n s = true →
      ∃ s', Reaches cfg s s' ∧ s'.imports = ∅ ∧
        s'.hiddenimports = eh ∧ s'.translations = et ∧ s'.plugins = ep := by
  intro n
  induction n with
  | zero =>
    intro s h
    obtain ⟨he, hres⟩ := okRun_zero h
    exact ⟨s, Relation.ReflTransGen.refl, he, hres⟩
  | succ n ih =>
    intro s h
    by_cases he : s.imports = ∅
    · exact ⟨s, Relation.ReflTransGen.refl, he, okRun_empty h he⟩
    · obtain ⟨imp, hmem⟩ := Finset.nonempty_iff_ne_empty.mpr he
      obtain ⟨s', hr, he', hres⟩ := ih (okRun_step h hmem)
      exact ⟨s', Relation.ReflTransGen.head (Step.pop s imp hmem) hr, he', hres⟩

/-! ### The walk on an arbitrary measured-acyclic configuration -/

theorem walkSuccs_cases (cfg : WalkCfg) (imp : String) :
    walkSuccs cfg imp = [] ∨
    walkSuccs cfg imp = cfg.getImports (if cfg.pf.win then cfg.fullnameOf imp else imp) := by
  unfold walkSuccs
  cases walkEntry cfg imp with
  | none => exact Or.inl rfl
  | some e => exact Or.inr rfl

theorem expandStep_none {cfg : WalkCfg} {imp : String} (s : WalkState)
    (hE : walkEntry cfg imp = none) :
    expandStep cfg imp s = { s with imports := s.imports.erase imp } := by
  have hE' : cfg.table (libNameOf cfg.pf (if cfg.pf.win then cfg.fullnameOf imp else imp))
      = none := hE
  simp only [expandStep, hE']

theorem expandStep_some {cfg : WalkCfg} {imp : String} {e : QtEntry} (s : WalkState)
    (hE : walkEntry cfg imp = some e) :
    expandStep cfg imp s =
      ⟨s.imports.erase imp ∪ (walkSuccs cfg imp).toFinset,
        s.hiddenimports ∪ optFinset e.hiddenimports,
        s.translations ∪ optFinset e.translations,
        s.plugins ∪ e.plugins.toFinset⟩ := by
  have hE' : cfg.table (libNameOf cfg.pf (if cfg.pf.win then cfg.fullnameOf imp else imp))
      = some e := hE
  have hS : walkSuccs cfg imp =
      cfg.getImports (if cfg.pf.win then cfg.fullnameOf imp else imp) := by
    simp only [walkSuccs, hE]
  rw [hS]
  simp only [expandStep, hE', optFinset]

theorem mem_optFinset {o : Option String} {x : String} :
    x ∈ optFinset o ↔ o = some x := by
  cases o <;> simp [optFinset, eq_comm]

theorem walkHeightW_pos (cfg : WalkCfg) (h : String → ℕ) (n : ℕ) (imp : String) :
    1 ≤ walkHeightW cfg h n imp := by
  cases n <;> simp [walkHeightW]

theorem walkSuccs_nil_of_zero {cfg : WalkCfg} {h : String → ℕ}
    (hdec : ∀ imp c, c ∈ walkSuccs cfg imp → h c < h imp) {imp : String}
    (hh : h imp = 0) : walkSuccs cfg imp = [] := by
  cases hs : walkSuccs cfg imp with
  | nil => rfl
  | cons c cs =>
    have := hdec imp c (hs ▸ List.mem_cons_self c cs)
    omega

theorem walkHeightW_stable (cfg : WalkCfg) (h : String → ℕ)
    (hdec : ∀ imp c, c ∈ walkSuccs cfg imp → h c < h imp) :
    ∀ (n : ℕ) (imp : String), h imp ≤ n →
      walkHeightW cfg h n imp = walkWeight cfg h imp := by
  intro n
  induction n using Nat.strong_induction_on with
  | _ n ih =>
    intro imp hle
    rcases Nat.eq_or_lt_of_le hle with heq | hlt
    · rw [walkWeight, heq]
    · cases n with
      | zero => omega
      | succ m =>
        rw [walkHeightW]
        cases hh : h imp with
        | zero =>
          rw [walkSuccs_nil_of_zero hdec hh]
          simp [walkWeight, hh, walkHeightW]
        | succ k =>
          rw [walkWeight, hh, walkHeightW]
          congr 1
          apply congrArg List.sum
          apply List.map_congr_left
          intro c hc
          have hck : h c < k + 1 := hh ▸ hdec imp c hc
          have h1 : walkHeightW cfg h m c = walkWeight cfg h c :=
            ih m (by omega) c (by omega)
          have h2 : walkHeightW cfg h k c = walkWeight cfg h c :=
            ih k (by omega) c (by omega)
          rw [h1, h2]

theorem walkWeight_succ (cfg : WalkCfg) (h : String → ℕ)
    (hdec : ∀ imp c, c ∈ walkSuccs cfg imp → h c < h imp) (imp : String) :
    walkWeight cfg h imp = 1 + ((walkSuccs cfg imp).map (walkWeight cfg h)).sum := by
  cases hh : h imp with
  | zero =>
    rw [walkSuccs_nil_of_zero hdec hh, walkWeight, hh]
    simp [walkHeightW]
  | succ k =>
    rw [walkWeight, hh, walkHeightW]
    congr 1
    apply congrArg List.sum
    apply List.map_congr_left
    intro c hc
    exact walkHeightW_stable cfg h hdec k c (by have := hh ▸ hdec imp c hc; omega)

theorem toFinset_sum_le (f : String → ℕ) :
    ∀ l : List String, l.toFinset.sum f ≤ (l.map f).sum := by
  intro l
  induction l with
  | nil => simp
  | cons a l ih =>
    rw [List.toFinset_cons, List.map_cons, List.sum_cons]
    by_cases ha : a ∈ l.toFinset
    · rw [Finset.insert_eq_self.mpr ha]
      exact le_trans ih (Nat.le_add_left _ _)
    · rw [Finset.sum_insert ha]
      exact Nat.add_le_add_left ih _

theorem stateMeasure_decrease (cfg : WalkCfg) (h : String → ℕ)
    (hdec : ∀ imp c, c ∈ walkSuccs cfg imp → h c < h imp)
    {s s' : WalkState} (hstep : Step cfg s s') :
    stateMeasure cfg h s' < stateMeasure cfg h s := by
  obtain ⟨imp, himp, rfl⟩ := step_inv hstep
  have hsum : (s.imports.erase imp).sum (walkWeight cfg h) + walkWeight cfg h imp
      = s.imports.sum (walkWeight cfg h) :=
    Finset.sum_erase_add s.imports (walkWeight cfg h) himp
  have hpos : 1 ≤ walkWeight cfg h imp := walkHeightW_pos cfg h (h imp) imp
  cases hE : walkEntry cfg imp with
  | none =>
    rw [expandStep_none s hE]
    simp only [stateMeasure]
    omega
  | some e =>
    rw [expandStep_some s hE]
    simp only [stateMeasure]
    have hui : (s.imports.erase imp ∪ (walkSuccs cfg imp).toFinset).sum (walkWeight cfg h)
          + ((s.imports.erase imp) ∩ (walkSuccs cfg imp).toFinset).sum (walkWeight cfg h)
        = (s.imports.erase imp).sum (walkWeight cfg h)
          + ((walkSuccs cfg imp).toFinset).sum (walkWeight cfg h) :=
      Finset.sum_union_inter
    have hfin : ((walkSuccs cfg imp).toFinset).sum (walkWeight cfg h)
        ≤ ((walkSuccs cfg imp).map (walkWeight cfg h)).sum :=
      toFinset_sum_le (walkWeight cfg h) (walkSuccs cfg imp)
    have hrec : walkWeight cfg h imp
        = 1 + ((walkSuccs cfg imp).map (walkWeight cfg h)).sum :=
      walkWeight_succ cfg h hdec imp
    omega

theorem terminating_of_decrease (cfg : WalkCfg) (h : String → ℕ)
    (hdec : ∀ imp c, c ∈ walkSuccs cfg imp → h c < h imp) (s : WalkState) :
    Terminating cfg s := by
  rintro ⟨f, h0, hstep⟩
  have key : ∀ n, stateMeasure cfg h (f (n + 1)) < stateMeasure cfg h (f n) :=
    fun n => stateMeasure_decrease cfg h hdec (hstep n)
  have mono : ∀ n, stateMeasure cfg h (f n) + n ≤ stateMeasure cfg h (f 0) := by
    intro n
    induction n with
    | zero => omega
    | succ n ih =>
      have := key n
      omega
  have := mono (stateMeasure cfg h (f 0) + 1)
  omega

theorem reaches_drained (cfg : WalkCfg) (h : String → ℕ)
    (hdec : ∀ imp c, c ∈ walkSuccs cfg imp → h c < h imp) :
    ∀ (N : ℕ) (s : WalkState), stateMeasure cfg h s ≤ N →
      ∃ s', Reaches cfg s s' ∧ s'.imports = ∅ := by
  intro N
  induction N with
  | zero =>
    intro s hle
    by_cases he : s.imports = ∅
    · exact ⟨s, Relation.ReflTransGen.refl, he⟩
    · obtain ⟨imp, himp⟩ := Finset.nonempty_iff_ne_empty.mpr he
      have h1 : 1 ≤ walkWeight cfg h imp := walkHeightW_pos cfg h (h imp) imp
      have h2 : walkWeight cfg h imp ≤ stateMeasure cfg h s :=
        Finset.single_le_sum (fun i _ => Nat.zero_le (walkWeight cfg h i)) himp
      omega
  | succ N ih =>
    intro s hle
    by_cases he : s.imports = ∅
    · exact ⟨s, Relation.ReflTransGen.refl, he⟩
    · obtain ⟨imp, himp⟩ := Finset.nonempty_iff_ne_empty.mpr he
      have hst : Step cfg s (expandStep cfg imp s) := Step.pop s imp himp
      have hdecr := stateMeasure_decrease cfg h hdec hst
      obtain ⟨s', hr, he'⟩ := ih (expandStep cfg imp s) (by omega)
      exact ⟨s', Relation.ReflTransGen.head hst hr, he'⟩

theorem walkInv_init (cfg : WalkCfg) (S : Finset String) :
    WalkInv cfg S ⟨S, ∅, ∅, ∅⟩ := by
  refine ⟨?_, ?_, ?_, ?_, ?_⟩
  · intro x hx
    exact absurd hx (Finset.not_mem_empty x)
  · intro x hx
    exact absurd hx (Finset.not_mem_empty x)
  · intro x hx
    exact absurd hx (Finset.not_mem_empty x)
  · intro w hw
    exact ⟨w, hw, Relation.ReflTransGen.refl⟩
  · intro n hn
    obtain ⟨s0, hs0, hrtg⟩ := hn
    exact Or.inr ⟨s0, hs0, hrtg⟩

theorem walkInv_step {cfg : WalkCfg} {S : Finset String} {s s' : WalkState}
    (hinv : WalkInv cfg S s) (hstep : Step cfg s s') : WalkInv cfg S s' := by
  obtain ⟨imp, himp, rfl⟩ := step_inv hstep
  cases hE : walkEntry cfg imp with
  | none =>
    rw [expandStep_none s hE]
    refine ⟨hinv.hiSound, hinv.trSound, hinv.plSound, ?_, ?_⟩
    · intro w hw
      exact hinv.wsReach w (Finset.mem_of_mem_erase hw)
    · intro n hn
      rcases hinv.complete n hn with hin | ⟨w, hw, hrtg⟩
      · exact Or.inl hin
      · by_cases hwi : w = imp
        · subst hwi
          rcases Relation.ReflTransGen.cases_head hrtg with rfl | ⟨c, hedge, -⟩
          · left
            intro e he
            rw [hE] at he
            exact Option.noConfusion he
          · have hnil : walkSuccs cfg w = [] := by
              simp only [walkSuccs, hE]
            rw [GEdge, hnil] at hedge
            exact absurd hedge (List.not_mem_nil c)
        · exact Or.inr ⟨w, Finset.mem_erase_of_ne_of_mem hwi hw, hrtg⟩
  | some e =>
    rw [expandStep_some s hE]
    refine ⟨?_, ?_, ?_, ?_, ?_⟩
    · intro x hx
      rcases Finset.mem_union.mp hx with hx | hx
      · exact hinv.hiSound x hx
      · exact ⟨imp, hinv.wsReach imp himp, e, hE, mem_optFinset.mp hx⟩
    · intro x hx
      rcases Finset.mem_union.mp hx with hx | hx
      · exact hinv.trSound x hx
      · exact ⟨imp, hinv.wsReach imp himp, e, hE, mem_optFinset.mp hx⟩
    · intro x hx
      rcases Finset.mem_union.mp hx with hx | hx
      · exact hinv.plSound x hx
      · exact ⟨imp, hinv.wsReach imp himp, e, hE, List.mem_toFinset.mp hx⟩
    · intro w hw
      rcases Finset.mem_union.mp hw with hw | hw
      · exact hinv.wsReach w (Finset.mem_of_mem_erase hw)
      · obtain ⟨s0, hs0, hrtg⟩ := hinv.wsReach imp himp
        exact ⟨s0, hs0, hrtg.tail (List.mem_toFinset.mp hw)⟩
    · intro n hn
      rcases hinv.complete n hn with hin | ⟨w, hw, hrtg⟩
      · left
        intro e' he'
        obtain ⟨h1, h2, h3⟩ := hin e' he'
        exact ⟨fun x hx => Finset.mem_union_left _ (h1 x hx),
          fun x hx => Finset.mem_union_left _ (h2 x hx),
          fun x hx => Finset.mem_union_left _ (h3 x hx)⟩
      · by_cases hwi : w = imp
        · subst hwi
          rcases Relation.ReflTransGen.cases_head hrtg with rfl | ⟨c, hedge, hrtg'⟩
          · left
            intro e' he'
            rw [hE] at he'
            cases Option.some.inj he'
            refine ⟨?_, ?_, ?_⟩
            · intro x hx
              exact Finset.mem_union_right _ (mem_optFinset.mpr hx)
            · intro x hx
              exact Finset.mem_union_right _ (mem_optFinset.mpr hx)
            · intro x hx
              exact Finset.mem_union_right _ (List.mem_toFinset.mpr hx)
          · exact Or.inr ⟨c,
              Finset.mem_union_right _ (List.mem_toFinset.mpr hedge), hrtg'⟩
        · exact Or.inr
            ⟨w, Finset.mem_union_left _ (Finset.mem_erase_of_ne_of_mem hwi hw), hrtg⟩

theorem walkInv_reaches {cfg : WalkCfg} {S : Finset String} {s s' : WalkState}
    (hr : Reaches cfg s s') (hinv : WalkInv cfg S s) : WalkInv cfg S s' := by
  induction hr with
  | refl => exact hinv
  | tail hab hbc ih => exact walkInv_step ih hbc

theorem walkInv_terminal {cfg : WalkCfg} {S : Finset String} {s' : WalkState}
    (hinv : WalkInv cfg S s') (he : s'.imports = ∅) :
    (∀ x, x ∈ s'.hiddenimports ↔ ∃ n, ReachableFrom cfg S n ∧
      ∃ e, walkEntry cfg n = some e ∧ e.hiddenimports = some x) ∧
    (∀ x, x ∈ s'.translations ↔ ∃ n, ReachableFrom cfg S n ∧
      ∃ e, walkEntry cfg n = some e ∧ e.translations = some x) ∧
    (∀ x, x ∈ s'.plugins ↔ ∃ n, ReachableFrom cfg S n ∧
      ∃ e, walkEntry cfg n = some e ∧ x ∈ e.plugins) := by
  have hdone : ∀ n, ReachableFrom cfg S n → EntriesIn cfg n s' := by
    intro n hn
    rcases hinv.complete n hn with hin | ⟨w, hw, -⟩
    · exact hin
    · rw [he] at hw
      exact absurd hw (Finset.not_mem_empty w)
  refine ⟨fun x => ⟨fun hx => hinv.hiSound x hx, ?_⟩,
    fun x => ⟨fun hx => hinv.trSound x hx, ?_⟩,
    fun x => ⟨fun hx => hinv.plSound x hx, ?_⟩⟩
  · rintro ⟨n, hn, e, hE, hx⟩
    exact ((hdone n hn) e hE).1 x hx
  · rintro ⟨n, hn, e, hE, hx⟩
    exact ((hdone n hn) e hE).2.1 x hx
  · rintro ⟨n, hn, e, hE, hx⟩
    exact ((hdone n hn) e hE).2.2 x hx

/-! ### Claims about the transitive walk (C1, C4) and normalization (C2, C3) -/

/-- C1 (counterexample): with a cyclic dependency graph -- `libA.so` and
`libB.so`, both table libraries, importing each other -- the walk of
`add_qt5_dependencies` does not terminate: popped libraries are re-added by
`imports.update(getImports(imp))`, there is no visited-set, and the work-set
alternates between the two singletons forever. -/
theorem walk_cycle_not_terminating : ¬ Terminating cycleCfg cycleInit := by
  intro hT
  apply hT
  refine ⟨cycleTrace, by simp [cycleTrace], ?_⟩
  intro n
  rcases Nat.mod_two_eq_zero_or_one n with h | h
  · have hn : cycleTrace n = cycleInit := by simp [cycleTrace, h]
    have h1 : (n + 1) % 2 = 1 := by omega
    have hn1 : cycleTrace (n + 1) = cycleOther := by simp [cycleTrace, h1]
    rw [hn, hn1]
    have he : expandStep cycleCfg "libA.so" cycleInit = cycleOther := by decide
    exact he ▸ Step.pop cycleInit "libA.so" (by decide)
  · have hn : cycleTrace n = cycleOther := by simp [cycleTrace, h]
    have h1 : (n + 1) % 2 = 0 := by omega
    have hn1 : cycleTrace (n + 1) = cycleInit := by simp [cycleTrace, h1]
    rw [hn, hn1]
    have he : expandStep cycleCfg "libB.so" cycleOther = cycleInit := by decide
    exact he ▸ Step.pop cycleOther "libB.so" (by decide)

/-- C1 (amended): for every starting work-set over a dependency graph that is
acyclic in the measured sense -- some height function strictly decreases
along every edge the walk can follow -- the walk terminates (no infinite run
exists and a drained state is reached), and every drained final state,
regardless of the order in which `set.pop()` removes libraries, holds in each
result set exactly the declared entries of the table libraries reachable from
the starting work-set, each once (set semantics). For a cyclic graph
termination fails (`walk_cycle_not_terminating`). -/
theorem walk_acyclic_terminates_and_collects (cfg : WalkCfg) (h : String → ℕ)
    (hdec : ∀ imp c, c ∈ walkSuccs cfg imp → h c < h imp) (S : Finset String) :
    Terminating cfg ⟨S, ∅, ∅, ∅⟩ ∧
    (∀ s', Reaches cfg ⟨S, ∅, ∅, ∅⟩ s' → s'.imports = ∅ →
      (∀ x, x ∈ s'.hiddenimports ↔ ∃ n, ReachableFrom cfg S n ∧
        ∃ e, walkEntry cfg n = some e ∧ e.hiddenimports = some x) ∧
      (∀ x, x ∈ s'.translations ↔ ∃ n, ReachableFrom cfg S n ∧
        ∃ e, walkEntry cfg n = some e ∧ e.translations = some x) ∧
      (∀ x, x ∈ s'.plugins ↔ ∃ n, ReachableFrom cfg S n ∧
        ∃ e, walkEntry cfg n = some e ∧ x ∈ e.plugins)) ∧
    (∃ s', Reaches cfg ⟨S, ∅, ∅, ∅⟩ s' ∧ s'.imports = ∅) := by
  refine ⟨terminating_of_decrease cfg h hdec _, ?_, ?_⟩
  · intro s' hr he
    exact walkInv_terminal (walkInv_reaches hr (walkInv_init cfg S)) he
  · exact reaches_drained cfg h hdec (stateMeasure cfg h ⟨S, ∅, ∅, ∅⟩) _ (le_refl _)

/-- The diamond's height function strictly decreases along every edge the
walk can follow, witnessing acyclicity. -/
theorem diamondHeight_decreases :
    ∀ imp c, c ∈ walkSuccs diamondCfg imp → diamondHeight c < diamondHeight imp := by
  intro imp c hc
  by_cases hA : imp = "libA.so"
  · subst hA
    have hs : walkSuccs diamondCfg "libA.so" = ["libB.so", "libC.so"] := by decide
    rw [hs] at hc
    simp only [List.mem_cons, List.not_mem_nil, or_false] at hc
    rcases hc with rfl | rfl <;> decide
  · by_cases hB : imp = "libB.so"
    · subst hB
      have hs : walkSuccs diamondCfg "libB.so" = ["libD.so"] := by decide
      rw [hs] at hc
      simp only [List.mem_cons, List.not_mem_nil, or_false] at hc
      subst hc
      decide
    · by_cases hC : imp = "libC.so"
      · subst hC
        have hs : walkSuccs diamondCfg "libC.so" = ["libD.so"] := by decide
        rw [hs] at hc
        simp only [List.mem_cons, List.not_mem_nil, or_false] at hc
        subst hc
        decide
      · exfalso
        rcases walkSuccs_cases diamondCfg imp with hnil | hgi
        · rw [hnil] at hc
          exact absurd hc (List.not_mem_nil c)
        · rw [hgi] at hc
          simp [diamondCfg, linuxPlatform, hA, hB, hC] at hc

theorem walk_acyclic_witness :
    (∀ imp c, c ∈ walkSuccs diamondCfg imp → diamondHeight c < diamondHeight imp) ∧
    Terminating diamondCfg diamondInit ∧
    (∃ s', Reaches diamondCfg diamondInit s' ∧ s'.imports = ∅) :=
  ⟨diamondHeight_decreases,
    (walk_acyclic_terminates_and_collects diamondCfg diamondHeight
      diamondHeight_decreases {"libA.so"}).1,
    (walk_acyclic_terminates_and_collects diamondCfg diamondHeight
      diamondHeight_decreases {"libA.so"}).2.2⟩

/-- Instance check of the diamond walk (`libA.so` imports `libB.so` and
`libC.so`, both of which import `libD.so`, all four in the table): the walk
terminates and every drained final state -- regardless of pop order -- holds
exactly each library's declared hidden-import, translation-base and plugin
entries once (set semantics). -/
theorem walk_diamond_terminates_and_collects :
    Terminating diamondCfg diamondInit ∧
    (∀ s', Reaches diamondCfg diamondInit s' → s'.imports = ∅ →
      s'.hiddenimports = diamondHidden ∧ s'.translations = diamondTrans ∧
      s'.plugins = diamondPlugins) ∧
    (∃ s', Reaches diamondCfg diamondInit s' ∧ s'.imports = ∅ ∧
      s'.hiddenimports = diamondHidden ∧ s'.translations = diamondTrans ∧
      s'.plugins = diamondPlugins) := by
  have h : okRun diamondCfg diamondHidden diamondTrans diamondPlugins 8 diamondInit
      = true := by decide
  exact ⟨okRun_terminating h, fun s' hr he => okRun_terminal_results h hr he,
    okRun_exists_terminal h⟩

theorem walk_diamond_witness :
    Reaches diamondCfg diamondInit diamondFinal ∧ diamondFinal.imports = ∅ ∧
    diamondFinal.hiddenimports = diamondHidden ∧
    diamondFinal.translations = diamondTrans ∧
    diamondFinal.plugins = diamondPlugins := by
  have hr : Reaches diamondCfg diamondInit diamondFinal := by
    refine Relation.ReflTransGen.head (Step.pop diamondInit "libA.so" (by decide)) ?_
    refine Relation.ReflTransGen.head (Step.pop _ "libB.so" (by decide)) ?_
    refine Relation.ReflTransGen.head (Step.pop _ "libC.so" (by decide)) ?_
    refine Relation.ReflTransGen.head (Step.pop _ "libD.so" (by decide)) ?_
    have heq : expandStep diamondCfg "libD.so"
        (expandStep diamondCfg "libC.so" (expandStep diamondCfg "libB.so"
          (expandStep diamondCfg "libA.so" diamondInit))) = diamondFinal := by decide
    exact heq ▸ Relation.ReflTransGen.refl
  exact ⟨hr, by decide,
    walk_diamond_terminates_and_collects.2.1 diamondFinal hr (by decide)⟩

/-- C4: with the dependency table exactly `x -> ("pkg.X", "base_x", ["plugA"])`
and the start module's single direct import `libx.so.1` on Linux (where the
dotted version suffix is re-stripped), the walk terminates and yields
hidden-imports `{pkg.X}`, translation bases `{base_x}` and plugin categories
`{plugA}`. -/
theorem walk_c4_yields :
    Terminating c4Cfg c4Init ∧
    (∀ s', Reaches c4Cfg c4Init s' → s'.imports = ∅ →
      s'.hiddenimports = {"pkg.X"} ∧ s'.translations = {"base_x"} ∧
      s'.plugins = {"plugA"}) ∧
    (∃ s', Reaches c4Cfg c4Init s' ∧ s'.imports = ∅ ∧
      s'.hiddenimports = {"pkg.X"} ∧ s'.translations = {"base_x"} ∧
      s'.plugins = {"plugA"}) := by
  have h : okRun c4Cfg {"pkg.X"} {"base_x"} {"plugA"} 3 c4Init = true := by decide
  exact ⟨okRun_terminating h, fun s' hr he => okRun_terminal_results h hr he,
    okRun_exists_terminal h⟩

theorem walk_c4_witness :
    Reaches c4Cfg c4Init c4Final ∧ c4Final.imports = ∅ ∧
    c4Final.hiddenimports = {"pkg.X"} ∧ c4Final.translations = {"base_x"} ∧
    c4Final.plugins = {"plugA"} := by
  have hr : Reaches c4Cfg c4Init c4Final := by
    refine Relation.ReflTransGen.head (Step.pop c4Init "libx.so.1" (by decide)) ?_
    have heq : expandStep c4Cfg "libx.so.1" c4Init = c4Final := by decide
    exact heq ▸ Relation.ReflTransGen.refl
  exact ⟨hr, by decide, walk_c4_yields.2.1 c4Final hr (by decide)⟩

/-- C2 (code divergence): on macOS a framework library path ending in `QtCore`
normalizes to `qtcore`, not `qt5core`: line 398 lowercases the name before
line 405 tests `lib_name.startswith('Qt')`, so the `Qt` -> `Qt5` rename can
never fire, and the resulting key is absent from the static table (whose
macOS-relevant keys all start with `qt5`). -/
theorem darwin_qt_rename_never_fires :
    libNameOf darwinPlatform
      "/Library/Frameworks/QtCore.framework/Versions/5/QtCore" = "qtcore" ∧
    libNameOf darwinPlatform
      "/Library/Frameworks/QtCore.framework/Versions/5/QtCore" ≠ "qt5core" ∧
    qtTableLookup "qtcore" = none ∧
    qtTableLookup "qt5core" = some ⟨some "PyQt5.QtCore", some "qtbase", []⟩ :=
  ⟨by decide, by decide, by decide, by decide⟩

/-- C3 (counterexample): normalization is not idempotent on its own outputs.
Normalizing `liblibx.so.1` on Linux yields `libx`, which still begins with
`lib`; a second pass strips the prefix again and returns `x`. -/
theorem norm_not_idempotent_on_lib_outputs :
    libNameOf linuxPlatform "liblibx.so.1" = "libx" ∧
    libNameOf linuxPlatform "libx" = "x" ∧
    libNameOf linuxPlatform (libNameOf linuxPlatform "liblibx.so.1") ≠
      libNameOf linuxPlatform "liblibx.so.1" :=
  ⟨by decide, by decide, by decide⟩

/-- C3 (amended): normalization is idempotent on every output that does not
still begin with `lib` and retains no dot: such an output is slash-free and
fully lowercased, so a second pass leaves it unchanged on every platform. -/
theorem norm_idempotent_on_clean_outputs (pf : Platform) (imp : String)
    (hlib : startsWithL ['l', 'i', 'b'] (libNameOf pf imp).data = false)
    (hdot : '.' ∉ (libNameOf pf imp).data) :
    libNameOf pf (libNameOf pf imp) = libNameOf pf imp :=
  congrArg String.mk (libNameOfL_fix pf.linux pf.darwin
    (libNameOfL_lowered pf.linux pf.darwin imp.data)
    (libNameOfL_no_slash pf.linux pf.darwin imp.data) hdot hlib)

theorem norm_idempotent_witness :
    startsWithL ['l', 'i', 'b'] (libNameOf linuxPlatform "libfoo.so").data = false ∧
    '.' ∉ (libNameOf linuxPlatform "libfoo.so").data ∧
    libNameOf linuxPlatform (libNameOf linuxPlatform "libfoo.so") =
      libNameOf linuxPlatform "libfoo.so" :=
  ⟨by decide, by decide,
    norm_idempotent_on_clean_outputs linuxPlatform "libfoo.so" (by decide) (by decide)⟩

/-! ### Claims about the probe operations (C5-C10) -/

/-- Helper: when every invocation reports a version that does not begin with
the requested one (or fails), the candidate loop finds nothing. -/
theorem qmakeSearch_none {version : String} {run : String → Option String}
    (h : ∀ dir vs, run dir = some vs → pyStartsWith vs version = false) :
    ∀ dirs : List String, qmakeSearch version run dirs = none := by
  intro dirs
  induction dirs with
  | nil => rfl
  | cons d rest ih =>
    rw [qmakeSearch]
    cases hr : run (joinPath (joinPath d "bin") "qmake") with
    | none => exact ih
    | some vs =>
      simp only [h _ vs hr, Bool.false_eq_true, if_false]
      exact ih

/-- C6: for every supported namespace, `qt_plugins_dir` never returns an empty
list: an `ok` result is a non-empty list of paths that all passed the
`os.path.isdir` probe (otherwise one of the two discovery errors is raised). -/
theorem qt_plugins_dir_nonempty_existing (ns : String) (evalPaths : List String)
    (isdir : String → Bool) (hns : ns ∈ validNamespaces) :
    ∀ l, qt_plugins_dir ns evalPaths isdir = .ok l →
      l ≠ [] ∧ ∀ p ∈ l, isdir p = true := by
  intro l hl
  simp only [qt_plugins_dir] at hl
  rw [if_neg (not_not_intro hns)] at hl
  by_cases hp : evalPaths = []
  · rw [if_pos hp] at hl
    exact Except.noConfusion hl
  · rw [if_neg hp] at hl
    by_cases hv : evalPaths.filter (fun p => isdir p) = []
    · rw [if_pos hv] at hl
      exact Except.noConfusion hl
    · rw [if_neg hv] at hl
      have hle := Except.ok.inj hl
      subst hle
      exact ⟨hv, fun p hp2 => (List.mem_filter.mp hp2).2⟩

theorem qt_plugins_dir_witness :
    ("PyQt5" ∈ validNamespaces) ∧
    ((["/p"] : List String) ≠ [] ∧ ∀ p ∈ ["/p"], (fun _ : String => true) p = true) :=
  ⟨by decide,
    qt_plugins_dir_nonempty_existing "PyQt5" ["/p"] (fun _ => true) (by decide)
      ["/p"] rfl⟩

/-- C7: on Windows with namespace `PyQt5`, `qt_plugins_binaries` keeps exactly
the scanned files that do not end in the debug suffix `d.dll`: a file appears
as a source in the binaries output iff it was found in some discovered plugin
directory and does not end in `d.dll`. -/
theorem qt_plugins_binaries_filters_debug (plugin_type : String)
    (evalPaths : List String) (isdir : String → Bool)
    (dllsInDir : String → List String) {pdir : List String}
    (hdir : qt_plugins_dir "PyQt5" evalPaths isdir = .ok pdir)
    {bins : List (String × String)}
    (hbin : qt_plugins_binaries plugin_type "PyQt5" evalPaths isdir dllsInDir true
      = .ok bins) :
    ∀ f : String, (∃ dest, (f, dest) ∈ bins) ↔
      (f ∈ pdir.flatMap (fun p => dllsInDir (joinPath p plugin_type)) ∧
        pyEndsWith f "d.dll" = false) := by
  intro f
  rw [qt_plugins_binaries, if_neg (by decide), hdir] at hbin
  dsimp only at hbin
  rw [if_neg (by decide), if_pos (by decide)] at hbin
  have hb := Except.ok.inj hbin
  subst hb
  constructor
  · rintro ⟨dest, hmem⟩
    obtain ⟨g, hg, heq⟩ := List.mem_map.mp hmem
    obtain ⟨hgmem, hgkeep⟩ := List.mem_filter.mp hg
    cases heq
    exact ⟨hgmem, by simpa using hgkeep⟩
  · rintro ⟨hmem, hkeep⟩
    refine ⟨_, List.mem_map.mpr ⟨f, List.mem_filter.mpr ⟨hmem, ?_⟩, rfl⟩⟩
    simp [hkeep]

theorem qt_plugins_binaries_filters_debug_witness :
    (("a.dll", joinPath (joinPath (joinPath "PyQt5" "Qt") "plugins") "imageformats") ∈
        ([("a.dll", joinPath (joinPath (joinPath "PyQt5" "Qt") "plugins") "imageformats")]
          : List (String × String)) ∧
      pyEndsWith "ad.dll" "d.dll" = true) ∧
    ((∃ dest, ("ad.dll", dest) ∈
        ([("a.dll", joinPath (joinPath (joinPath "PyQt5" "Qt") "plugins") "imageformats")]
          : List (String × String))) ↔
      ("ad.dll" ∈ (["/p"] : List String).flatMap
          (fun p => (fun _ => ["a.dll", "ad.dll"]) (joinPath p "imageformats")) ∧
        pyEndsWith "ad.dll" "d.dll" = false)) :=
  ⟨⟨by decide, by decide⟩,
    qt_plugins_binaries_filters_debug "imageformats" ["/p"] (fun _ => true)
      (fun _ => ["a.dll", "ad.dll"]) rfl rfl "ad.dll"⟩

/-- Helper: scanning only non-existent category subdirectories finds no
files. -/
theorem flatMap_dlls_nil {plugin_type : String} {dirExists : String → Bool}
    {contents : String → List String} :
    ∀ {pdir : List String}, (∀ p ∈ pdir, dirExists (joinPath p plugin_type) = false) →
      pdir.flatMap (fun path => dlls_in_dir dirExists contents
        (joinPath path plugin_type)) = [] := by
  intro pdir
  induction pdir with
  | nil => exact fun _ => rfl
  | cons p rest ih =>
    intro hnone
    rw [List.flatMap_cons, dlls_in_dir, hnone p (List.mem_cons_self p rest)]
    simp only [Bool.false_eq_true, if_false, List.nil_append]
    exact ih fun q hq => hnone q (List.mem_cons_of_mem p hq)

/-- C8: when no matching plugin subdirectory exists under any discovered
plugin directory, `qt_plugins_binaries` returns an empty binaries list for the
category instead of raising. (`dlls_in_dir` is spec-modelled: scanning a
non-existent directory yields no files.) -/
theorem qt_plugins_binaries_empty_when_no_subdir (plugin_type ns : String)
    (evalPaths : List String) (isdir : String → Bool) (dirExists : String → Bool)
    (contents : String → List String) (is_win : Bool) {pdir : List String}
    (hns : ns ∈ validNamespaces)
    (hdir : qt_plugins_dir ns evalPaths isdir = .ok pdir)
    (hnone : ∀ p ∈ pdir, dirExists (joinPath p plugin_type) = false) :
    qt_plugins_binaries plugin_type ns evalPaths isdir
      (dlls_in_dir dirExists contents) is_win = .ok [] := by
  rw [qt_plugins_binaries, if_neg (not_not_intro hns), hdir]
  dsimp only
  rw [flatMap_dlls_nil hnone]
  simp

theorem qt_plugins_binaries_empty_witness :
    ("PyQt5" ∈ validNamespaces) ∧
    qt_plugins_binaries "sql" "PyQt5" ["/p"] (fun _ => true)
      (dlls_in_dir (fun _ => false) (fun _ => ["x.dll"])) true = .ok [] :=
  ⟨by decide,
    qt_plugins_binaries_empty_when_no_subdir "sql" "PyQt5" ["/p"] (fun _ => true)
      (fun _ => false) (fun _ => ["x.dll"]) true (by decide) rfl
      (fun p _ => rfl)⟩

/-- C9: for every unsupported namespace string, each of `qt_plugins_dir`,
`qt_plugins_binaries` and `qt_menu_nib_dir` raises the invalid-namespace
error immediately; the result does not depend on any of the filesystem or
subprocess probe parameters, which are universally quantified here. -/
theorem invalid_namespace_rejected (ns : String) (hns : ns ∉ validNamespaces)
    (evalPaths : List String) (isdir : String → Bool) (plugin_type : String)
    (dllsInDir : String → List String) (is_win : Bool)
    (execLibPath execPrefix : String) (pexists : String → Bool) :
    qt_plugins_dir ns evalPaths isdir = .error (.exc ("Invalid namespace: " ++ ns)) ∧
    qt_plugins_binaries plugin_type ns evalPaths isdir dllsInDir is_win =
      .error (.exc ("Invalid namespace: " ++ ns)) ∧
    qt_menu_nib_dir ns execLibPath execPrefix pexists =
      .error (.exc ("Invalid namespace: " ++ ns)) := by
  refine ⟨?_, ?_, ?_⟩
  · rw [qt_plugins_dir, if_pos hns]
  · rw [qt_plugins_binaries, if_pos hns]
  · rw [qt_menu_nib_dir, if_pos hns]

theorem invalid_namespace_witness :
    ("PyQt6" ∉ validNamespaces) ∧
    qt_plugins_dir "PyQt6" ["/p"] (fun _ => true) =
      .error (.exc ("Invalid namespace: " ++ "PyQt6")) :=
  ⟨by decide,
    (invalid_namespace_rejected "PyQt6" (by decide) ["/p"] (fun _ => true) "sql"
      (fun _ => []) true "/lib" "/pre" (fun _ => true)).1⟩

/-- C5 (counterexample): when no valid qmake is found, `get_qmake_path`
returns the non-error value `None` (here `Except.ok none`) instead of raising
a discovery error: line 176 is `return None`. -/
theorem qmake_not_found_returns_none :
    get_qmake_path "5" (fun _ => none) (fun _ => none) (fun _ => none) = .ok none := by
  rfl

/-- C5 (amended): the locator checks the environment override first (returning
it without invoking any tool), then the default search path before the
homebrew prefixes, validating a candidate by checking that its reported
version string begins with the requested prefix; when no valid tool is found
it returns `None` (a non-error value) rather than raising. -/
theorem get_qmake_path_behavior :
    (∀ (d : String) (cs : List Char) (env homebrew run : String → Option String)
      (version : String), env "QT5DIR" = some d → version.data = '5' :: cs →
      get_qmake_path version env homebrew run =
        .ok (some (joinPath (joinPath d "bin") "qmake"))) ∧
    (∀ (version vs : String) (env homebrew run : String → Option String),
      env "QT5DIR" = none → env "QT4DIR" = none →
      run (joinPath (joinPath "" "bin") "qmake") = some vs →
      pyStartsWith vs version = true →
      get_qmake_path version env homebrew run =
        .ok (some (joinPath (joinPath "" "bin") "qmake"))) ∧
    (∀ (version : String) (env homebrew run : String → Option String),
      env "QT5DIR" = none → env "QT4DIR" = none →
      (∀ dir vs, run dir = some vs → pyStartsWith vs version = false) →
      get_qmake_path version env homebrew run = .ok none) := by
  refine ⟨?_, ?_, ?_⟩
  · intro d cs env homebrew run version h5 hv
    simp only [get_qmake_path, h5, hv]
    simp
  · intro version vs env homebrew run h5 h4 hrun hpre
    simp only [get_qmake_path, h5, qmakeFromQt4Dir, h4, qmakeDirs, qmakeSearch, hrun]
    simp [hpre]
  · intro version env homebrew run h5 h4 hnone
    simp only [get_qmake_path, h5, qmakeFromQt4Dir, h4, qmakeSearch_none hnone]

theorem get_qmake_path_behavior_witness :
    get_qmake_path "5" (fun v => if v = "QT5DIR" then some "/qt5" else none)
      (fun _ => none) (fun _ => none) =
      .ok (some (joinPath (joinPath "/qt5" "bin") "qmake")) ∧
    get_qmake_path "5" (fun _ => none) (fun _ => none)
      (fun _ => some "5.9.2") =
      .ok (some (joinPath (joinPath "" "bin") "qmake")) ∧
    get_qmake_path "5" (fun _ => none) (fun _ => none)
      (fun _ => some "4.8.7") = .ok none :=
  ⟨get_qmake_path_behavior.1 "/qt5" [] _ _ _ "5" rfl rfl,
    get_qmake_path_behavior.2.1 "5" "5.9.2" _ _ _ rfl rfl rfl (by decide),
    get_qmake_path_behavior.2.2 "5" _ _ _ rfl rfl
      (fun dir vs h => by injection h with h2; rw [← h2]; decide)⟩

/-- C10: calling `get_qmake_path` with its default empty version string while
`QT5DIR` (or `QT4DIR`) is set evaluates `version[0]` on an empty string and
raises IndexError instead of returning a path or None. -/
theorem qmake_empty_version_index_error (env homebrew run : String → Option String)
    (h : (env "QT5DIR").isSome ∨ (env "QT4DIR").isSome) :
    get_qmake_path "" env homebrew run = .error .indexError := by
  rcases h with h | h
  · obtain ⟨d, hd⟩ := Option.isSome_iff_exists.mp h
    rw [get_qmake_path, hd]
  · cases h5 : env "QT5DIR" with
    | some d => rw [get_qmake_path, h5]
    | none =>
      obtain ⟨d, hd⟩ := Option.isSome_iff_exists.mp h
      rw [get_qmake_path, h5, qmakeFromQt4Dir, hd]

theorem qmake_empty_version_witness :
    (((fun v => if v = "QT5DIR" then some "/q" else none) "QT5DIR").isSome ∨
      ((fun v : String => if v = "QT5DIR" then some "/q" else none) "QT4DIR").isSome) ∧
    get_qmake_path "" (fun v => if v = "QT5DIR" then some "/q" else none)
      (fun _ => none) (fun _ => none) = .error .indexError :=
  ⟨Or.inl rfl,
    qmake_empty_version_index_error _ _ _ (Or.inl rfl)⟩

end PyiQt
